import Mathlib

/-!
Verification of the document-rectangle detection and perspective-crop pipeline
of this repository (src/lib/imageProcessing.ts and the interactive crop editor
component that consumes it).

Modelling conventions:

* JavaScript numbers are modelled as exact rationals on the computable side;
  decimal literals such as 0.2 denote the exact rational 1/5.
* Math.sqrt appears in the source only inside order comparisons and ratios.
  On the computable side we therefore work with squared distances (sqrt is
  strictly monotone on nonnegative reals, so an order comparison of distances
  agrees with the same comparison of squared distances and of squared
  thresholds, for nonnegative thresholds).  Where the actual distance value
  matters (confidence scoring, the perspective transform) we use real-valued
  relations in which a distance d is characterised by 0 <= d and
  d ^ 2 = squared distance.
* A store into a Uint8ClampedArray rounds the stored value to a nearest
  integer; it is modelled by the relation RoundsTo, which says exactly that
  the stored byte is within 1/2 of the real value.
-/

/-- Point in image pixel space (interface Point, imageProcessing.ts). -/
structure Point where
  x : ℚ
  y : ℚ
deriving DecidableEq, Repr

instance : Inhabited Point := ⟨⟨0, 0⟩⟩

/-- Quadrilateral with four role-tagged corners (interface Rectangle,
imageProcessing.ts). -/
structure Rectangle where
  topLeft : Point
  topRight : Point
  bottomRight : Point
  bottomLeft : Point
deriving DecidableEq, Repr

/-- Raster image: width, height and the flat RGBA byte array, indexed as in
the source as data ((y * width + x) * 4 + channel).  Bytes are naturals. -/
structure ImageData where
  width : ℕ
  height : ℕ
  data : ℕ → ℕ

/-- Squared euclidean distance.  The source helper distance returns
Math.sqrt of this value; every use of distance in the computable part of the
source sits inside an order comparison, so the square is used there. -/
def dist2 (p1 p2 : Point) : ℚ :=
  (p1.x - p2.x) ^ 2 + (p1.y - p2.y) ^ 2

/-- Squared point-to-segment distance (function distanceToLine of the
source, which returns the square root of this value). -/
def distanceToLine2 (point lineStart lineEnd : Point) : ℚ :=
  let A := point.x - lineStart.x
  let B := point.y - lineStart.y
  let C := lineEnd.x - lineStart.x
  let D := lineEnd.y - lineStart.y
  let dot := A * C + B * D
  let lenSq := C * C + D * D
  if lenSq = 0 then A * A + B * B
  else
    let param := dot / lenSq
    let closestX :=
      if param < 0 then lineStart.x
      else if 1 < param then lineEnd.x
      else lineStart.x + param * C
    let closestY :=
      if param < 0 then lineStart.y
      else if 1 < param then lineEnd.y
      else lineStart.y + param * D
    (point.x - closestX) ^ 2 + (point.y - closestY) ^ 2

/-- Maximum-distance scan of douglasPeucker: the source loop over the
interior points i = 1 .. length - 2 keeping the first strict maximum of the
distance to the chord, here with squared distances (an order-isomorphic
change, see module comment). -/
def maxScan (start endp : Point) : List Point → ℕ → ℚ × ℕ → ℚ × ℕ
  | [], _, acc => acc
  | p :: rest, i, acc =>
      maxScan start endp rest (i + 1)
        (if acc.1 < distanceToLine2 p start endp
         then (distanceToLine2 p start endp, i) else acc)

/-- Douglas-Peucker simplification (function douglasPeucker of the source).
The source compares sqrt distances against epsilon; here squared distances
are compared against epsilon ^ 2, which agrees with the source for the
nonnegative epsilons used at every call site (10, and the default 2).
Structural recursion on a fuel parameter: every recursive call is on a list
that is strictly shorter (the split index satisfies 1 <= m.2 <= length - 2
whenever the branch is taken, see maxScan_cases below), so any fuel of at
least the list length gives the source's behaviour; douglasPeucker below
passes exactly the list length. -/
def douglasPeuckerAux : ℕ → List Point → ℚ → List Point
  | 0, points, _ => points
  | fuel + 1, points, epsilon =>
      if points.length < 3 then points
      else
        let start := points.headI
        let endp := points.getLastD ⟨0, 0⟩
        let m := maxScan start endp ((points.drop 1).take (points.length - 2)) 1 (0, 0)
        if epsilon ^ 2 < m.1 then
          (douglasPeuckerAux fuel (points.take (m.2 + 1)) epsilon).dropLast ++
            douglasPeuckerAux fuel (points.drop m.2) epsilon
        else
          [start, endp]

/-- Douglas-Peucker at the canonical (sufficient) fuel. -/
def douglasPeucker (points : List Point) (epsilon : ℚ) : List Point :=
  douglasPeuckerAux points.length points epsilon

/-- Polygon approximation (function approximatePolygon of the source):
inputs with fewer than 3 points are returned unchanged, otherwise
douglasPeucker is applied. -/
def approximatePolygon (contour : List Point) (epsilon : ℚ) : List Point :=
  if contour.length < 3 then contour
  else douglasPeucker contour epsilon

/-- Corner-role assignment (function orderRectanglePoints of the source):
stable sort by y, split into the top two and bottom two points, stable sort
each pair by x.  JavaScript's Array.prototype.sort with a numeric comparator
is a stable ascending sort, modelled by the stable insertionSort. -/
def orderRectanglePoints (points : List Point) : Rectangle :=
  let sorted := points.insertionSort (fun a b => a.y ≤ b.y)
  let topPoints := (sorted.take 2).insertionSort (fun a b => a.x ≤ b.x)
  let bottomPoints := (sorted.drop 2).insertionSort (fun a b => a.x ≤ b.x)
  { topLeft := topPoints.getD 0 ⟨0, 0⟩
    topRight := topPoints.getD 1 ⟨0, 0⟩
    bottomLeft := bottomPoints.getD 0 ⟨0, 0⟩
    bottomRight := bottomPoints.getD 1 ⟨0, 0⟩ }

/-- Rectangle validation (function isValidRectangle of the source): every
corner must satisfy 0 <= x < width and 0 <= y < height, and the effective
width and height (maxima of opposite squared edge lengths) must strictly
exceed the squared value of minSize = min(width, height) * 0.2.  The source
compares sqrt lengths against minSize; for the nonnegative dimensions of a
real image this agrees with comparing squares. -/
def isValidRectangle (rect : Rectangle) (width height : ℚ) : Bool :=
  let points := [rect.topLeft, rect.topRight, rect.bottomLeft, rect.bottomRight]
  if points.any (fun point =>
      decide (point.x < 0) || decide (width ≤ point.x) ||
      decide (point.y < 0) || decide (height ≤ point.y)) then
    false
  else
    let rectWidth2 := max (dist2 rect.topLeft rect.topRight) (dist2 rect.bottomLeft rect.bottomRight)
    let rectHeight2 := max (dist2 rect.topLeft rect.bottomLeft) (dist2 rect.topRight rect.bottomRight)
    let minSize := min width height * 0.2
    decide (minSize ^ 2 < rectWidth2) && decide (minSize ^ 2 < rectHeight2)

/-- Selector loop body predicate: the simplified polygon (epsilon 10) has
exactly 4 points and the ordered quadrilateral passes validation.  This is
the acceptance test applied by findBestRectangle to each contour in turn. -/
def contourPasses (contour : List Point) (width height : ℚ) : Bool :=
  (approximatePolygon contour 10).length == 4 &&
    isValidRectangle (orderRectanglePoints (approximatePolygon contour 10)) width height

/-- Rectangle selection (function findBestRectangle of the source): walk the
contour list in order, return the first contour passing contourPasses,
ordered into corner roles; none if no contour passes. -/
def findBestRectangle : List (List Point) → ℚ → ℚ → Option Rectangle
  | [], _, _ => none
  | contour :: rest, width, height =>
      if (approximatePolygon contour 10).length = 4 then
        if isValidRectangle (orderRectanglePoints (approximatePolygon contour 10)) width height then
          some (orderRectanglePoints (approximatePolygon contour 10))
        else findBestRectangle rest width height
      else findBestRectangle rest width height

/-- Offsets of the 8-connected neighbourhood in the iteration order of the
source's nested dy/dx loops (dy outer from -1 to 1, dx inner from -1 to 1,
skipping (0,0)); pairs are (dx, dy). -/
def neighborOffsets : List (ℤ × ℤ) :=
  [(-1, -1), (0, -1), (1, -1), (-1, 0), (1, 0), (-1, 1), (0, 1), (1, 1)]

/-- Stack-based flood fill (function traceContour of the source).  The stack
is a list whose head is the top (JavaScript push/pop act on the array end);
visited is the list of visited flat pixel indices.  An explicit fuel
parameter makes the recursion structural; every call supplies fuel
exceeding the maximal possible number of loop iterations, which is bounded
by 1 + 9 * width * height since every visit pushes at most 8 points and
every iteration pops one.  Returns the traced contour (in visit order, as
pushed by the source) together with the updated visited set. -/
def traceContour (data : ℕ → ℕ) (width height : ℕ) (threshold : ℕ) :
    ℕ → List (ℕ × ℕ) → List ℕ → List Point × List ℕ
  | 0, _, visited => ([], visited)
  | _ + 1, [], visited => ([], visited)
  | fuel + 1, (x, y) :: stack, visited =>
      let index := y * width + x
      if index ∈ visited then
        traceContour data width height threshold fuel stack visited
      else
        let visited1 := index :: visited
        let pushed := neighborOffsets.filterMap (fun d =>
          let nx := (x : ℤ) + d.1
          let ny := (y : ℤ) + d.2
          if 0 ≤ nx ∧ nx < (width : ℤ) ∧ 0 ≤ ny ∧ ny < (height : ℤ) ∧
              ¬(ny.toNat * width + nx.toNat ∈ visited1) ∧
              threshold < data ((ny.toNat * width + nx.toNat) * 4) then
            some (nx.toNat, ny.toNat)
          else none)
        let r := traceContour data width height threshold fuel (pushed.reverse ++ stack) visited1
        ((⟨(x : ℚ), (y : ℚ)⟩ : Point) :: r.1, r.2)

/-- Contour discovery (function findContours of the source): raster scan in
row-major order, flood-filling from each unvisited above-threshold pixel;
contours with more than 50 points are kept (the source condition is the
strict contour.length > 50); the result is sorted descending by point count
(the source sorts with the comparator b.length - a.length, a stable
descending sort, modelled by the stable insertionSort with the
corresponding relation).  The loop body is factored out as findContoursStep
(the state is the pair of collected contours and the visited set). -/
def findContoursStep (imageData : ImageData) (threshold : ℕ)
    (st : List (List Point) × List ℕ) (p : ℕ × ℕ) : List (List Point) × List ℕ :=
  let index := p.2 * imageData.width + p.1
  if ¬(index ∈ st.2) ∧ threshold < imageData.data (index * 4) then
    let r := traceContour imageData.data imageData.width imageData.height threshold
      (9 * imageData.width * imageData.height + 2) [(p.1, p.2)] st.2
    if 50 < r.1.length then (st.1 ++ [r.1], r.2) else (st.1, r.2)
  else st

/-- Contour discovery main loop (see the preceding comment). -/
def findContours (imageData : ImageData) (threshold : ℕ) : List (List Point) :=
  let scan := (List.range imageData.height).flatMap
    (fun y => (List.range imageData.width).map (fun x => (x, y)))
  (scan.foldl (findContoursStep imageData threshold) ([], [])).1.insertionSort
    (fun a b => b.length ≤ a.length)

/-- Corner accessor in the source's role order (pointKeys = topLeft,
topRight, bottomRight, bottomLeft). -/
def corner (rect : Rectangle) : Fin 4 → Point
  | 0 => rect.topLeft
  | 1 => rect.topRight
  | 2 => rect.bottomRight
  | 3 => rect.bottomLeft

/-- Corner update of the interactive editor (handleMouseMove of the crop
component): the dragged corner is replaced by the new point clamped with
Math.max(0, Math.min(canvas.width, x)) and Math.max(0, Math.min(canvas.height, y));
the other corners are copied unchanged, and no validation is performed. -/
def updateCorner (rect : Rectangle) (idx : Fin 4) (p : Point) (width height : ℚ) : Rectangle :=
  let clamped : Point := ⟨max 0 (min width p.x), max 0 (min height p.y)⟩
  match idx with
  | 0 => { rect with topLeft := clamped }
  | 1 => { rect with topRight := clamped }
  | 2 => { rect with bottomRight := clamped }
  | 3 => { rect with bottomLeft := clamped }

/-- Fallback crop rectangle of the crop component (processImage): full image
bounds inset by margin = min(width, height) * 0.05 on each side. -/
def defaultInsetRectangle (width height : ℚ) : Rectangle :=
  let margin := min width height * 0.05
  { topLeft := ⟨margin, margin⟩
    topRight := ⟨width - margin, margin⟩
    bottomRight := ⟨width - margin, height - margin⟩
    bottomLeft := ⟨margin, height - margin⟩ }

/-- Seeding of the editable crop quadrilateral (processImage of the crop
component): the detected rectangle is used only when one was detected and
the confidence strictly exceeds 30, otherwise the inset fallback is used.
The confidence is passed as a rational; only its order against 30 matters. -/
def seedCropPoints (detected : Option Rectangle) (confidence : ℚ) (width height : ℚ) : Rectangle :=
  match detected with
  | some r => if 30 < confidence then r else defaultInsetRectangle width height
  | none => defaultInsetRectangle width height

/-- Characterisation of the real value returned by the source helper
distance: nonnegative with square equal to the squared distance. -/
def IsDist (p q : Point) (d : ℝ) : Prop :=
  0 ≤ d ∧ d ^ 2 = (dist2 p q : ℝ)

/-- Confidence scoring (function calculateConfidence of the source), as a
relation because the edge lengths are real square roots: rectWidth and
rectHeight are the maxima of opposite edge lengths, aspect their ratio,
sizeFrac the covered fraction of the image area, and the score combines the
aspect score (1 - |aspect - 1| inside [0.5, 2], else 0) and the size score
(sizeFrac / 0.8 capped at 1) with weights 0.6 / 0.4, scaled to 0..100. -/
def calculateConfidence (rect : Rectangle) (width height : ℚ) (score : ℝ) : Prop :=
  ∃ dTop dBottom dLeft dRight rectWidth rectHeight aspect sizeFrac aspectScore sizeScore : ℝ,
    IsDist rect.topLeft rect.topRight dTop ∧
    IsDist rect.bottomLeft rect.bottomRight dBottom ∧
    IsDist rect.topLeft rect.bottomLeft dLeft ∧
    IsDist rect.topRight rect.bottomRight dRight ∧
    rectWidth = max dTop dBottom ∧
    rectHeight = max dLeft dRight ∧
    aspect = rectWidth / rectHeight ∧
    sizeFrac = rectWidth * rectHeight / ((width : ℝ) * (height : ℝ)) ∧
    ((0.5 ≤ aspect ∧ aspect ≤ 2.0) → aspectScore = 1 - |aspect - 1.0| / 1.0) ∧
    (¬(0.5 ≤ aspect ∧ aspect ≤ 2.0) → aspectScore = 0) ∧
    sizeScore = min (sizeFrac / 0.8) 1.0 ∧
    score = (aspectScore * 0.6 + sizeScore * 0.4) * 100

/-- Detection result (detectDocumentRectangle of the source), over the edge
raster: the grayscale, blur and Sobel stages only produce that raster and do
not affect the relationship verified here between the selected rectangle and
the confidence.  The rectangle is the selector's result on the contours of
the edge raster at threshold 100; the confidence is the scorer's value when
a rectangle is present and exactly 0 otherwise. -/
def detectDocumentRectangle (edges : ImageData) (result : Option Rectangle × ℝ) : Prop :=
  result.1 = findBestRectangle (findContours edges 100) (edges.width : ℚ) (edges.height : ℚ) ∧
  ((result.1 = none ∧ result.2 = 0) ∨
    (∃ r, result.1 = some r ∧
      calculateConfidence r (edges.width : ℚ) (edges.height : ℚ) result.2))

/-- Affine matrix in DOMMatrix component order (a b c d e f): the map is
(x, y) to (a x + c y + e, b x + d y + f). -/
structure Matrix2D where
  a : ℝ
  b : ℝ
  c : ℝ
  d : ℝ
  e : ℝ
  f : ℝ

/-- Application of an affine matrix to a point, as a relation over the reals. -/
def matrixMapsTo (m : Matrix2D) (x y outX outY : ℝ) : Prop :=
  m.a * x + m.c * y + m.e = outX ∧ m.b * x + m.d * y + m.f = outY

/-- Transform construction (function calculatePerspectiveTransform of the
source): srcWidth is the distance topLeft-topRight, srcHeight the distance
topLeft-bottomLeft, the scales divide the destination dimensions by them.
DOMMatrix.translateSelf and scaleSelf both post-multiply, so the source
builds T(-topLeft) * S(scaleX, scaleY), whose application scales first and
then translates: (x, y) maps to (scaleX * x - topLeft.x, scaleY * y - topLeft.y). -/
def calculatePerspectiveTransform (srcRect : Rectangle) (destWidth destHeight : ℚ)
    (m : Matrix2D) : Prop :=
  ∃ srcWidth srcHeight scaleX scaleY : ℝ,
    IsDist srcRect.topLeft srcRect.topRight srcWidth ∧
    IsDist srcRect.topLeft srcRect.bottomLeft srcHeight ∧
    scaleX = (destWidth : ℝ) / srcWidth ∧
    scaleY = (destHeight : ℝ) / srcHeight ∧
    m = ⟨scaleX, 0, 0, scaleY, -((srcRect.topLeft.x : ℚ) : ℝ), -((srcRect.topLeft.y : ℚ) : ℝ)⟩

/-- Crop operation (function cropToRectangle of the source): the output
canvas has exactly the requested dimensions and the context transform is the
one built by calculatePerspectiveTransform; drawImage then renders the
source through that transform. -/
def cropToRectangle (srcRect : Rectangle) (outputWidth outputHeight : ℚ)
    (result : ℚ × ℚ × Matrix2D) : Prop :=
  result.1 = outputWidth ∧ result.2.1 = outputHeight ∧
  calculatePerspectiveTransform srcRect outputWidth outputHeight result.2.2

/-- Store of a real value into a Uint8ClampedArray slot: the stored byte is
within 1/2 of the real value (round to nearest; all values stored by the
blur are convex combinations of bytes, so the 0..255 clamp never acts). -/
def RoundsTo (r : ℝ) (n : ℕ) : Prop :=
  |r - (n : ℝ)| ≤ 1 / 2

/-- Clamping of a neighbour coordinate to the image bounds
(Math.min(Math.max(v, 0), hi) of the source), as a natural number index. -/
def clampIdx (v : ℤ) (hi : ℤ) : ℕ :=
  (min (max v 0) hi).toNat

/-- Byte read by the blur at kernel position (i, j) for output pixel (x, y)
and channel c, with the neighbour coordinates clamped to the image bounds;
i is the ky index and j the kx index of the source loops (offset by
halfKernel = radius). -/
def blurSample (img : ImageData) (radius : ℕ) (x y c i j : ℕ) : ℕ :=
  let px := clampIdx ((x : ℤ) + ((j : ℤ) - (radius : ℤ))) ((img.width : ℤ) - 1)
  let py := clampIdx ((y : ℤ) + ((i : ℤ) - (radius : ℤ))) ((img.height : ℤ) - 1)
  img.data ((py * img.width + px) * 4 + c)

/-- Kernel construction (function generateGaussianKernel of the source):
sigma = radius / 3, entries norm * exp(-(x^2 + y^2) / (2 sigma^2)) over the
(2 radius + 1)^2 grid, normalised by the total sum. -/
def generateGaussianKernel (radius : ℕ) (kernel : ℕ → ℕ → ℝ) : Prop :=
  ∃ sigma norm coeff : ℝ, ∃ raw : ℕ → ℕ → ℝ,
    sigma = (radius : ℝ) / 3 ∧
    norm = 1 / (Real.sqrt (2 * Real.pi) * sigma) ∧
    coeff = 2 * sigma * sigma ∧
    (∀ i j : ℕ, raw i j =
      norm * Real.exp (-((((i : ℝ) - (radius : ℝ)) ^ 2 + (((j : ℝ) - (radius : ℝ))) ^ 2) / coeff))) ∧
    (∀ i j : ℕ, kernel i j =
      raw i j / ∑ a ∈ Finset.range (radius * 2 + 1), ∑ b ∈ Finset.range (radius * 2 + 1), raw a b)

/-- Blur (function gaussianBlur of the source), as a relation: the output
raster has the input dimensions, and every channel of every pixel stores the
kernel-weighted average of the clamped neighbourhood divided by the summed
weights (the source's weightSum, which covers the whole kernel window
regardless of clamping). -/
def gaussianBlur (img : ImageData) (radius : ℕ) (output : ImageData) : Prop :=
  output.width = img.width ∧ output.height = img.height ∧
  ∃ kernel : ℕ → ℕ → ℝ, generateGaussianKernel radius kernel ∧
    ∀ x y c : ℕ, x < img.width → y < img.height → c < 4 →
      RoundsTo
        ((∑ i ∈ Finset.range (radius * 2 + 1), ∑ j ∈ Finset.range (radius * 2 + 1),
            kernel i j * (blurSample img radius x y c i j : ℝ)) /
          (∑ i ∈ Finset.range (radius * 2 + 1), ∑ j ∈ Finset.range (radius * 2 + 1), kernel i j))
        (output.data ((y * img.width + x) * 4 + c))

unseal Rat.add Rat.sub Rat.mul Rat.inv Rat.ofScientific

/-- Equality of nonnegative reals with equal squares. -/
theorem nonneg_sq_inj (a b : ℝ) (ha : 0 ≤ a) (hb : 0 ≤ b) (h : a ^ 2 = b ^ 2) : a = b := by
  by_contra hne
  rcases lt_or_gt_of_ne hne with hlt | hgt
  · nlinarith
  · nlinarith

/-- Head of a nonempty list via headI. -/
theorem headI_head? (l : List Point) (h : l ≠ []) : l.head? = some l.headI := by
  cases l with
  | nil => exact absurd rfl h
  | cons a t => rfl

/-- Last element of a nonempty list via getLastD. -/
theorem getLastD_getLast? (l : List Point) (d : Point) (h : l ≠ []) :
    l.getLast? = some (l.getLastD d) := by
  cases l with
  | nil => exact absurd rfl h
  | cons a t => rw [List.getLastD_eq_getLast?]; cases hq : (a :: t).getLast? with
    | none => exact absurd (List.getLast?_eq_none_iff.mp hq) h
    | some b => rfl

/-- Taking at least one element preserves the head. -/
theorem take_head? (l : List Point) (n : ℕ) (h : 1 ≤ n) : (l.take n).head? = l.head? := by
  cases l with
  | nil => simp
  | cons a t => cases n with
    | zero => omega
    | succ k => simp

/-- Dropping fewer elements than the length preserves the last element. -/
theorem drop_getLast? (l : List Point) (n : ℕ) (h : n < l.length) :
    (l.drop n).getLast? = l.getLast? := by
  induction l generalizing n with
  | nil => simp at h
  | cons a t ih =>
      cases n with
      | zero => simp
      | succ k =>
          simp only [List.length_cons, Nat.succ_lt_succ_iff] at h
          rw [List.drop_succ_cons, ih k h]
          cases t with
          | nil => simp at h
          | cons b t2 => simp [List.getLast?_cons_cons]

/-- Dropping the last element of a list of length at least two preserves the
head. -/
theorem dropLast_head? (l : List Point) (h : 2 ≤ l.length) : l.dropLast.head? = l.head? := by
  cases l with
  | nil => simp at h
  | cons a t => cases t with
    | nil => simp at h
    | cons b t2 => simp

/-- Result locations of the max scan: either the accumulator is returned
unchanged or the returned index lies in the scanned range. -/
theorem maxScan_cases (start endp : Point) (l : List Point) :
    ∀ (i : ℕ) (acc : ℚ × ℕ),
      maxScan start endp l i acc = acc ∨
        (i ≤ (maxScan start endp l i acc).2 ∧ (maxScan start endp l i acc).2 < i + l.length) := by
  induction l with
  | nil => intro i acc; exact Or.inl rfl
  | cons p rest ih =>
      intro i acc
      simp only [maxScan]
      by_cases hd : acc.1 < distanceToLine2 p start endp
      · rw [if_pos hd]
        rcases ih (i + 1) (distanceToLine2 p start endp, i) with h | h
        · right; rw [h]; simp
        · right; simp only [List.length_cons]; omega
      · rw [if_neg hd]
        rcases ih (i + 1) acc with h | h
        · exact Or.inl h
        · right; simp only [List.length_cons]; omega

/-- Upper bound on the max scan result from a bound on all scanned
distances. -/
theorem maxScan_le (start endp : Point) (bound : ℚ) (l : List Point) :
    ∀ (i : ℕ) (acc : ℚ × ℕ), acc.1 ≤ bound →
      (∀ p ∈ l, distanceToLine2 p start endp ≤ bound) →
      (maxScan start endp l i acc).1 ≤ bound := by
  induction l with
  | nil => intro i acc hacc _; exact hacc
  | cons p rest ih =>
      intro i acc hacc hall
      simp only [maxScan]
      by_cases hd : acc.1 < distanceToLine2 p start endp
      · rw [if_pos hd]
        exact ih (i + 1) _ (hall p (List.mem_cons_self p rest)) (fun q hq => hall q (List.mem_cons_of_mem p hq))
      · rw [if_neg hd]
        exact ih (i + 1) acc hacc (fun q hq => hall q (List.mem_cons_of_mem p hq))

/-- Inputs shorter than 3 points are returned unchanged, at any fuel. -/
theorem douglasPeuckerAux_short (fuel : ℕ) (points : List Point) (epsilon : ℚ)
    (h : points.length < 3) : douglasPeuckerAux fuel points epsilon = points := by
  cases fuel with
  | zero => rfl
  | succ f => simp only [douglasPeuckerAux]; rw [if_pos h]

/-- Simplification never returns fewer than 2 points when given at least 2. -/
theorem douglasPeuckerAux_length (fuel : ℕ) :
    ∀ (points : List Point) (epsilon : ℚ), points.length ≤ fuel → 2 ≤ points.length →
      2 ≤ (douglasPeuckerAux fuel points epsilon).length := by
  induction fuel with
  | zero => intro points ε hf h2; exact h2
  | succ f ih =>
      intro points ε hf h2
      by_cases h3 : points.length < 3
      · rw [douglasPeuckerAux_short _ _ _ h3]; exact h2
      · simp only [douglasPeuckerAux]
        rw [if_neg h3]
        set m := maxScan points.headI (points.getLastD ⟨0, 0⟩)
          ((points.drop 1).take (points.length - 2)) 1 (0, 0) with hm
        by_cases hc : ε ^ 2 < m.1
        · rw [if_pos hc]
          rcases maxScan_cases points.headI (points.getLastD ⟨0, 0⟩)
              ((points.drop 1).take (points.length - 2)) 1 (0, 0) with hcase | hcase
          · rw [← hm] at hcase
            rw [hcase] at hc
            exact absurd hc (not_lt.mpr (sq_nonneg ε))
          · rw [← hm] at hcase
            have hlen : ((points.drop 1).take (points.length - 2)).length = points.length - 2 := by
              simp only [List.length_take, List.length_drop]; omega
            rw [hlen] at hcase
            have hleft := ih (points.take (m.2 + 1)) ε
              (by simp only [List.length_take]; omega)
              (by simp only [List.length_take]; omega)
            have hright := ih (points.drop m.2) ε
              (by simp only [List.length_drop]; omega)
              (by simp only [List.length_drop]; omega)
            simp only [List.length_append, List.length_dropLast]
            omega
        · rw [if_neg hc]; simp

/-- Simplification preserves the first point. -/
theorem douglasPeuckerAux_head? (fuel : ℕ) :
    ∀ (points : List Point) (epsilon : ℚ), points.length ≤ fuel →
      (douglasPeuckerAux fuel points epsilon).head? = points.head? := by
  induction fuel with
  | zero => intro points ε hf; rfl
  | succ f ih =>
      intro points ε hf
      by_cases h3 : points.length < 3
      · rw [douglasPeuckerAux_short _ _ _ h3]
      · simp only [douglasPeuckerAux]
        rw [if_neg h3]
        have hne : points ≠ [] := by
          intro hnil; rw [hnil] at h3; exact h3 (by simp)
        set m := maxScan points.headI (points.getLastD ⟨0, 0⟩)
          ((points.drop 1).take (points.length - 2)) 1 (0, 0) with hm
        by_cases hc : ε ^ 2 < m.1
        · rw [if_pos hc]
          rcases maxScan_cases points.headI (points.getLastD ⟨0, 0⟩)
              ((points.drop 1).take (points.length - 2)) 1 (0, 0) with hcase | hcase
          · rw [← hm] at hcase
            rw [hcase] at hc
            exact absurd hc (not_lt.mpr (sq_nonneg ε))
          · rw [← hm] at hcase
            have hlen : ((points.drop 1).take (points.length - 2)).length = points.length - 2 := by
              simp only [List.length_take, List.length_drop]; omega
            rw [hlen] at hcase
            have hlfuel : (points.take (m.2 + 1)).length ≤ f := by
              simp only [List.length_take]; omega
            have hllen : 2 ≤ (points.take (m.2 + 1)).length := by
              simp only [List.length_take]; omega
            have hleft2 := douglasPeuckerAux_length f (points.take (m.2 + 1)) ε hlfuel hllen
            rw [List.head?_append]
            rw [dropLast_head? _ hleft2, ih (points.take (m.2 + 1)) ε hlfuel,
              take_head? points (m.2 + 1) (by omega)]
            rw [headI_head? points hne]
            rfl
        · rw [if_neg hc]
          rw [headI_head? points hne]
          rfl

/-- Simplification preserves the last point. -/
theorem douglasPeuckerAux_getLast? (fuel : ℕ) :
    ∀ (points : List Point) (epsilon : ℚ), points.length ≤ fuel →
      (douglasPeuckerAux fuel points epsilon).getLast? = points.getLast? := by
  induction fuel with
  | zero => intro points ε hf; rfl
  | succ f ih =>
      intro points ε hf
      by_cases h3 : points.length < 3
      · rw [douglasPeuckerAux_short _ _ _ h3]
      · simp only [douglasPeuckerAux]
        rw [if_neg h3]
        have hne : points ≠ [] := by
          intro hnil; rw [hnil] at h3; exact h3 (by simp)
        set m := maxScan points.headI (points.getLastD ⟨0, 0⟩)
          ((points.drop 1).take (points.length - 2)) 1 (0, 0) with hm
        by_cases hc : ε ^ 2 < m.1
        · rw [if_pos hc]
          rcases maxScan_cases points.headI (points.getLastD ⟨0, 0⟩)
              ((points.drop 1).take (points.length - 2)) 1 (0, 0) with hcase | hcase
          · rw [← hm] at hcase
            rw [hcase] at hc
            exact absurd hc (not_lt.mpr (sq_nonneg ε))
          · rw [← hm] at hcase
            have hlen : ((points.drop 1).take (points.length - 2)).length = points.length - 2 := by
              simp only [List.length_take, List.length_drop]; omega
            rw [hlen] at hcase
            have hrfuel : (points.drop m.2).length ≤ f := by
              simp only [List.length_drop]; omega
            have hrlen : 2 ≤ (points.drop m.2).length := by
              simp only [List.length_drop]; omega
            have hright2 := douglasPeuckerAux_length f (points.drop m.2) ε hrfuel hrlen
            have hrlast := ih (points.drop m.2) ε hrfuel
            rw [drop_getLast? points m.2 (by omega)] at hrlast
            rw [List.getLast?_append, hrlast, getLastD_getLast? points ⟨0, 0⟩ hne]
            rfl
        · rw [if_neg hc]
          rw [getLastD_getLast? points ⟨0, 0⟩ hne]
          simp

/-- Successor-fuel unfolding of the flat case: when no interior point's
squared chord distance exceeds epsilon ^ 2, only the endpoints remain. -/
theorem douglasPeuckerAux_flat (f : ℕ) (points : List Point) (epsilon : ℚ)
    (h3 : 3 ≤ points.length)
    (hall : ∀ p ∈ (points.drop 1).take (points.length - 2),
      distanceToLine2 p points.headI (points.getLastD ⟨0, 0⟩) ≤ epsilon ^ 2) :
    douglasPeuckerAux (f + 1) points epsilon = [points.headI, points.getLastD ⟨0, 0⟩] := by
  simp only [douglasPeuckerAux]
  rw [if_neg (by omega)]
  have hle := maxScan_le points.headI (points.getLastD ⟨0, 0⟩) (epsilon ^ 2)
    ((points.drop 1).take (points.length - 2)) 1 (0, 0) (sq_nonneg epsilon) hall
  rw [if_neg (not_lt.mpr hle)]

/-- Every contour in a step result is either carried over or has more than
50 points. -/
theorem findContoursStep_mem (imageData : ImageData) (threshold : ℕ)
    (st : List (List Point) × List ℕ) (p : ℕ × ℕ) :
    ∀ c ∈ (findContoursStep imageData threshold st p).1, c ∈ st.1 ∨ 50 < c.length := by
  intro c hc
  unfold findContoursStep at hc
  by_cases h1 : ¬(p.2 * imageData.width + p.1 ∈ st.2) ∧
      threshold < imageData.data ((p.2 * imageData.width + p.1) * 4)
  · rw [if_pos h1] at hc
    by_cases h2 : 50 < (traceContour imageData.data imageData.width imageData.height threshold
        (9 * imageData.width * imageData.height + 2) [(p.1, p.2)] st.2).1.length
    · rw [if_pos h2] at hc
      rcases List.mem_append.mp hc with h | h
      · exact Or.inl h
      · rw [List.mem_singleton] at h
        exact Or.inr (h ▸ h2)
    · rw [if_neg h2] at hc
      exact Or.inl hc
  · rw [if_neg h1] at hc
    exact Or.inl hc

/-- Every contour accumulated by the scan fold over an initial state whose
contours all have more than 50 points again has more than 50 points. -/
theorem findContours_foldl_mem (imageData : ImageData) (threshold : ℕ) :
    ∀ (scan : List (ℕ × ℕ)) (st : List (List Point) × List ℕ),
      (∀ c ∈ st.1, 50 < c.length) →
      ∀ c ∈ (scan.foldl (findContoursStep imageData threshold) st).1, 50 < c.length := by
  intro scan
  induction scan with
  | nil => intro st hst c hc; exact hst c hc
  | cons p rest ih =>
      intro st hst c hc
      refine ih (findContoursStep imageData threshold st p) ?_ c hc
      intro c2 hc2
      rcases findContoursStep_mem imageData threshold st p c2 hc2 with h | h
      · exact hst c2 h
      · exact h

/-- C5 (amended).  For every edge raster and threshold, every contour in the
result of findContours has strictly more than 50 points (contours of 50 or
fewer points are discarded; only ones of more than 50 points are kept), and
the returned list is sorted descending by point count. -/
theorem c5_find_contours_amended (imageData : ImageData) (threshold : ℕ) :
    ((findContours imageData threshold).all (fun c => decide (50 < c.length)) = true) ∧
    List.Sorted (fun a b => b.length ≤ a.length) (findContours imageData threshold) := by
  haveI hTot : IsTotal (List Point) (fun a b => b.length ≤ a.length) :=
    ⟨fun a b => le_total b.length a.length⟩
  haveI hTrans : IsTrans (List Point) (fun a b => b.length ≤ a.length) :=
    ⟨fun a b c hab hbc => le_trans hbc hab⟩
  constructor
  · rw [List.all_eq_true]
    intro c hc
    rw [decide_eq_true_eq]
    unfold findContours at hc
    rw [List.mem_insertionSort] at hc
    exact findContours_foldl_mem imageData threshold _ ([], []) (by intro c2 hc2; simp at hc2) c hc
  · unfold findContours
    exact List.sorted_insertionSort _ _

set_option maxRecDepth 8000 in
/-- C5 (counterexample).  On a 50-by-1 raster whose entire single row is
above threshold, the flood fill from the first pixel collects a contour of
exactly 50 points, yet findContours returns the empty list: a contour of
exactly 50 points ("at least 50") is discarded rather than kept. -/
theorem c5_contour_filter_counterexample :
    (traceContour (fun i => if i % 4 = 0 ∧ i < 200 then 255 else 0) 50 1 128
        452 [(0, 0)] []).1.length = 50 ∧
    findContours ⟨50, 1, fun i => if i % 4 = 0 ∧ i < 200 then 255 else 0⟩ 128 = [] := by
  constructor
  · decide
  · decide

/-- C6.  Douglas-Peucker: inputs with fewer than 3 points (in particular
2-point inputs) are returned unchanged; for longer inputs the two endpoints
are preserved; and when no interior point's distance to the chord strictly
exceeds epsilon (squared comparison; equality with epsilon is excluded by
the strict test) the result is exactly the two endpoints. -/
theorem c6_douglas_peucker :
    (∀ (points : List Point) (epsilon : ℚ), points.length < 3 →
        douglasPeucker points epsilon = points) ∧
    (∀ (points : List Point) (epsilon : ℚ),
        (douglasPeucker points epsilon).head? = points.head? ∧
        (douglasPeucker points epsilon).getLast? = points.getLast?) ∧
    (∀ (points : List Point) (epsilon : ℚ), 3 ≤ points.length →
        (∀ p ∈ (points.drop 1).take (points.length - 2),
          distanceToLine2 p points.headI (points.getLastD ⟨0, 0⟩) ≤ epsilon ^ 2) →
        douglasPeucker points epsilon = [points.headI, points.getLastD ⟨0, 0⟩]) := by
  refine ⟨?_, ?_, ?_⟩
  · intro points epsilon h
    exact douglasPeuckerAux_short _ _ _ h
  · intro points epsilon
    exact ⟨douglasPeuckerAux_head? points.length points epsilon le_rfl,
      douglasPeuckerAux_getLast? points.length points epsilon le_rfl⟩
  · intro points epsilon h3 hall
    unfold douglasPeucker
    have hsucc : points.length = (points.length - 1) + 1 := by omega
    rw [hsucc]
    exact douglasPeuckerAux_flat _ _ _ h3 hall

/-- C6 (witness). -/
theorem c6_douglas_peucker_witness :
    douglasPeucker [⟨0, 0⟩, ⟨5, 5⟩] 10 = [⟨0, 0⟩, ⟨5, 5⟩] ∧
    (douglasPeucker [⟨0, 0⟩, ⟨1, 0⟩, ⟨2, 0⟩] 10).head? = some ⟨0, 0⟩ ∧
    (douglasPeucker [⟨0, 0⟩, ⟨1, 0⟩, ⟨2, 0⟩] 10).getLast? = some ⟨2, 0⟩ ∧
    douglasPeucker [⟨0, 0⟩, ⟨1, 0⟩, ⟨2, 0⟩] 10 = [⟨0, 0⟩, ⟨2, 0⟩] :=
  ⟨c6_douglas_peucker.1 [⟨0, 0⟩, ⟨5, 5⟩] 10 (by decide),
    (c6_douglas_peucker.2.1 [⟨0, 0⟩, ⟨1, 0⟩, ⟨2, 0⟩] 10).1,
    (c6_douglas_peucker.2.1 [⟨0, 0⟩, ⟨1, 0⟩, ⟨2, 0⟩] 10).2,
    c6_douglas_peucker.2.2 [⟨0, 0⟩, ⟨1, 0⟩, ⟨2, 0⟩] 10 (by decide) (by decide)⟩

/-- C4 (amended).  The corner-update operation of the interactive editor
sets the selected corner (role order topLeft, topRight, bottomRight,
bottomLeft) to the new point clamped to [0, width] on x and [0, height] on y
(the source clamps with Math.min(canvas.width, x), so the inclusive upper
bound is the full dimension, not width - 1), leaves the other three corners
unchanged, and performs no validation of the resulting quadrilateral. -/
theorem c4_update_corner_amended (rect : Rectangle) (idx : Fin 4) (p : Point)
    (width height : ℚ) :
    corner (updateCorner rect idx p width height) idx =
      ⟨max 0 (min width p.x), max 0 (min height p.y)⟩ ∧
    ∀ j : Fin 4, j ≠ idx → corner (updateCorner rect idx p width height) j = corner rect j := by
  constructor
  · fin_cases idx <;> rfl
  · intro j hj
    fin_cases idx <;> fin_cases j <;> first | rfl | exact absurd rfl hj

/-- C4 (witness). -/
theorem c4_update_corner_amended_witness :
    corner (updateCorner ⟨⟨0, 0⟩, ⟨0, 0⟩, ⟨0, 0⟩, ⟨0, 0⟩⟩ 0 ⟨200, 70⟩ 100 50) 0 =
      ⟨max 0 (min 100 200), max 0 (min 50 70)⟩ ∧
    corner (updateCorner ⟨⟨0, 0⟩, ⟨0, 0⟩, ⟨0, 0⟩, ⟨0, 0⟩⟩ 0 ⟨200, 70⟩ 100 50) 1 = ⟨0, 0⟩ :=
  ⟨(c4_update_corner_amended ⟨⟨0, 0⟩, ⟨0, 0⟩, ⟨0, 0⟩, ⟨0, 0⟩⟩ 0 ⟨200, 70⟩ 100 50).1,
    (c4_update_corner_amended ⟨⟨0, 0⟩, ⟨0, 0⟩, ⟨0, 0⟩, ⟨0, 0⟩⟩ 0 ⟨200, 70⟩ 100 50).2 1 (by decide)⟩

/-- C4 (counterexample).  Dragging the top-left corner to (200, 70) on a
100-by-50 image yields the corner (100, 50): the x coordinate is clamped to
width = 100, not to width - 1 = 99 as the claim states. -/
theorem c4_clamp_counterexample :
    (updateCorner ⟨⟨0, 0⟩, ⟨0, 0⟩, ⟨0, 0⟩, ⟨0, 0⟩⟩ 0 ⟨200, 70⟩ 100 50).topLeft = ⟨100, 50⟩ ∧
    ¬((updateCorner ⟨⟨0, 0⟩, ⟨0, 0⟩, ⟨0, 0⟩, ⟨0, 0⟩⟩ 0 ⟨200, 70⟩ 100 50).topLeft.x ≤ 100 - 1) := by
  constructor
  · decide
  · decide

/-- C9.  The crop editor seeds its editable quadrilateral from the detected
rectangle exactly when a rectangle was detected and its confidence strictly
exceeds 30; otherwise (no detection, or confidence at most 30) it uses the
default inset rectangle whose margin is 5 percent of the minimum image
dimension on each side. -/
theorem c9_seed_crop_points :
    (∀ (r : Rectangle) (confidence width height : ℚ), 30 < confidence →
        seedCropPoints (some r) confidence width height = r) ∧
    (∀ (r : Rectangle) (confidence width height : ℚ), confidence ≤ 30 →
        seedCropPoints (some r) confidence width height = defaultInsetRectangle width height) ∧
    (∀ (confidence width height : ℚ),
        seedCropPoints none confidence width height = defaultInsetRectangle width height) ∧
    (∀ width height : ℚ,
        defaultInsetRectangle width height =
          ⟨⟨min width height * 0.05, min width height * 0.05⟩,
            ⟨width - min width height * 0.05, min width height * 0.05⟩,
            ⟨width - min width height * 0.05, height - min width height * 0.05⟩,
            ⟨min width height * 0.05, height - min width height * 0.05⟩⟩) := by
  refine ⟨?_, ?_, ?_, ?_⟩
  · intro r confidence width height h
    simp [seedCropPoints, h]
  · intro r confidence width height h
    simp [seedCropPoints, not_lt.mpr h]
  · intro confidence width height
    rfl
  · intro width height
    rfl

/-- C9 (witness). -/
theorem c9_seed_crop_points_witness :
    seedCropPoints (some ⟨⟨1, 2⟩, ⟨3, 2⟩, ⟨3, 4⟩, ⟨1, 4⟩⟩) 50 100 200 =
      ⟨⟨1, 2⟩, ⟨3, 2⟩, ⟨3, 4⟩, ⟨1, 4⟩⟩ ∧
    seedCropPoints (some ⟨⟨1, 2⟩, ⟨3, 2⟩, ⟨3, 4⟩, ⟨1, 4⟩⟩) 30 100 200 =
      defaultInsetRectangle 100 200 :=
  ⟨c9_seed_crop_points.1 _ 50 100 200 (by norm_num),
    c9_seed_crop_points.2.1 _ 30 100 200 le_rfl⟩

/-- C2.  The rectangle selector returns, for the first contour whose
simplification at epsilon 10 has exactly 4 points and passes validation, the
ordered quadrilateral of that contour, regardless of any later contours
(first-match, no further contours examined); when no contour passes it
returns none; and validation holds exactly when all four corners satisfy
0 <= x < width and 0 <= y < height and both squared effective dimensions
strictly exceed the square of 20 percent of the minimum image dimension. -/
theorem c2_rectangle_selector :
    (∀ (width height : ℚ) (l1 l2 : List (List Point)) (contour : List Point),
        (∀ c ∈ l1, contourPasses c width height = false) →
        contourPasses contour width height = true →
        findBestRectangle (l1 ++ contour :: l2) width height =
          some (orderRectanglePoints (approximatePolygon contour 10))) ∧
    (∀ (width height : ℚ) (contours : List (List Point)),
        (∀ c ∈ contours, contourPasses c width height = false) →
        findBestRectangle contours width height = none) ∧
    (∀ (rect : Rectangle) (width height : ℚ),
        isValidRectangle rect width height = true ↔
          ((∀ p ∈ [rect.topLeft, rect.topRight, rect.bottomLeft, rect.bottomRight],
              0 ≤ p.x ∧ p.x < width ∧ 0 ≤ p.y ∧ p.y < height) ∧
            (min width height * 0.2) ^ 2 <
              max (dist2 rect.topLeft rect.topRight) (dist2 rect.bottomLeft rect.bottomRight) ∧
            (min width height * 0.2) ^ 2 <
              max (dist2 rect.topLeft rect.bottomLeft) (dist2 rect.topRight rect.bottomRight))) := by
  have hpass : ∀ (c : List Point) (width height : ℚ), contourPasses c width height = true ↔
      ((approximatePolygon c 10).length = 4 ∧
        isValidRectangle (orderRectanglePoints (approximatePolygon c 10)) width height = true) := by
    intro c width height
    unfold contourPasses
    rw [Bool.and_eq_true, beq_iff_eq]
  refine ⟨?_, ?_, ?_⟩
  · intro width height l1 l2 contour h1 hp
    rw [hpass] at hp
    induction l1 with
    | nil =>
        simp only [List.nil_append]
        unfold findBestRectangle
        rw [if_pos hp.1, if_pos hp.2]
    | cons c rest ih =>
        have hc := h1 c (List.mem_cons_self c rest)
        have hrec : findBestRectangle (rest ++ contour :: l2) width height =
            some (orderRectanglePoints (approximatePolygon contour 10)) :=
          ih (fun c2 hc2 => h1 c2 (List.mem_cons_of_mem c hc2))
        simp only [List.cons_append]
        unfold findBestRectangle
        by_cases h4 : (approximatePolygon c 10).length = 4
        · rw [if_pos h4]
          have hnv : ¬(isValidRectangle (orderRectanglePoints (approximatePolygon c 10))
              width height = true) := by
            intro h
            have h2 := (hpass c width height).mpr ⟨h4, h⟩
            rw [hc] at h2
            exact Bool.noConfusion h2
          rw [if_neg hnv]
          exact hrec
        · rw [if_neg h4]
          exact hrec
  · intro width height contours h1
    induction contours with
    | nil => rfl
    | cons c rest ih =>
        have hc := h1 c (List.mem_cons_self c rest)
        have hrec := ih (fun c2 hc2 => h1 c2 (List.mem_cons_of_mem c hc2))
        unfold findBestRectangle
        by_cases h4 : (approximatePolygon c 10).length = 4
        · rw [if_pos h4]
          have hnv : ¬(isValidRectangle (orderRectanglePoints (approximatePolygon c 10))
              width height = true) := by
            intro h
            have h2 := (hpass c width height).mpr ⟨h4, h⟩
            rw [hc] at h2
            exact Bool.noConfusion h2
          rw [if_neg hnv]
          exact hrec
        · rw [if_neg h4]
          exact hrec
  · intro rect width height
    simp only [isValidRectangle]
    split
    · next hany =>
        constructor
        · intro h; exact Bool.noConfusion h
        · rintro ⟨hbound, -, -⟩
          rw [List.any_eq_true] at hany
          obtain ⟨p, hp, hf⟩ := hany
          simp only [Bool.or_eq_true, decide_eq_true_eq] at hf
          obtain ⟨hx0, hxw, hy0, hyh⟩ := hbound p hp
          rcases hf with ((h | h) | h) | h
          · exact absurd h (not_lt.mpr hx0)
          · exact absurd h (not_le.mpr hxw)
          · exact absurd h (not_lt.mpr hy0)
          · exact absurd h (not_le.mpr hyh)
    · next hany =>
        rw [Bool.and_eq_true, decide_eq_true_eq, decide_eq_true_eq]
        constructor
        · rintro ⟨hw2, hh2⟩
          refine ⟨?_, hw2, hh2⟩
          intro p hp
          have hf : ¬(decide (p.x < 0) || decide (width ≤ p.x) ||
              decide (p.y < 0) || decide (height ≤ p.y)) = true := by
            intro h
            exact hany (List.any_eq_true.mpr ⟨p, hp, h⟩)
          simp only [Bool.or_eq_true, decide_eq_true_eq, not_or] at hf
          obtain ⟨⟨⟨h1, h2⟩, h3⟩, h4⟩ := hf
          exact ⟨not_lt.mp h1, not_le.mp h2, not_lt.mp h3, not_le.mp h4⟩
        · rintro ⟨-, hw2, hh2⟩
          exact ⟨hw2, hh2⟩

/-- C2 (witness).  A single-point contour fails, the following square
contour passes, and the selector returns its ordered corners while ignoring
the (empty) remainder of the list. -/
theorem c2_rectangle_selector_witness :
    findBestRectangle [[⟨0, 0⟩], [⟨0, 0⟩, ⟨100, 0⟩, ⟨100, 100⟩, ⟨0, 100⟩]] 101 101 =
      some (orderRectanglePoints
        (approximatePolygon [⟨0, 0⟩, ⟨100, 0⟩, ⟨100, 100⟩, ⟨0, 100⟩] 10)) :=
  c2_rectangle_selector.1 101 101 [[⟨0, 0⟩]] []
    [⟨0, 0⟩, ⟨100, 0⟩, ⟨100, 100⟩, ⟨0, 100⟩] (by decide) (by decide)

/-- C1 (code divergence).  The transform built for the skewed quadrilateral
with corners (0,0), (4,3), (4,4), (0,1) and output 800 x 1000 maps the
topRight source corner (4,3) to (640, 3000), not to the output corner
(800, 0) required by the homography design requirement: the source's
translate-plus-scale shortcut does not map the four source corners to the
four output corners. -/
theorem c1_perspective_shortcut :
    (∃ m : Matrix2D,
      calculatePerspectiveTransform ⟨⟨0, 0⟩, ⟨4, 3⟩, ⟨4, 4⟩, ⟨0, 1⟩⟩ 800 1000 m) ∧
    (∀ m : Matrix2D,
      calculatePerspectiveTransform ⟨⟨0, 0⟩, ⟨4, 3⟩, ⟨4, 4⟩, ⟨0, 1⟩⟩ 800 1000 m →
        matrixMapsTo m 4 3 640 3000 ∧ ¬matrixMapsTo m 4 3 800 0) := by
  constructor
  · refine ⟨⟨160, 0, 0, 1000, 0, 0⟩, 5, 1, 160, 1000,
      ⟨by norm_num, ?_⟩, ⟨by norm_num, ?_⟩, by norm_num, by norm_num, ?_⟩
    · norm_num [dist2]
    · norm_num [dist2]
    · simp only [Matrix2D.mk.injEq]
      norm_num
  · intro m hm
    obtain ⟨srcW, srcH, sx, sy, hdw, hdh, hsx, hsy, hmeq⟩ := hm
    have h25 : ((dist2 ⟨0, 0⟩ ⟨4, 3⟩ : ℚ) : ℝ) = 25 := by norm_num [dist2]
    have h01 : ((dist2 ⟨0, 0⟩ ⟨0, 1⟩ : ℚ) : ℝ) = 1 := by norm_num [dist2]
    have hsw : srcW = 5 :=
      nonneg_sq_inj _ _ hdw.1 (by norm_num) (by rw [hdw.2]; rw [h25]; norm_num)
    have hsh : srcH = 1 :=
      nonneg_sq_inj _ _ hdh.1 (by norm_num) (by rw [hdh.2]; rw [h01]; norm_num)
    rw [hsw] at hsx
    rw [hsh] at hsy
    have hsx' : sx = 160 := by rw [hsx]; norm_num
    have hsy' : sy = 1000 := by rw [hsy]; norm_num
    rw [hsx', hsy'] at hmeq
    constructor
    · rw [hmeq]
      constructor
      · show (160 : ℝ) * 4 + 0 * 3 + -((0 : ℚ) : ℝ) = 640
        norm_num
      · show (0 : ℝ) * 4 + 1000 * 3 + -((0 : ℚ) : ℝ) = 3000
        norm_num
    · rw [hmeq]
      rintro ⟨hx, -⟩
      rw [show (160 : ℝ) * 4 + 0 * 3 + -((0 : ℚ) : ℝ) = 640 by norm_num] at hx
      norm_num at hx

/-- C1 (witness). -/
theorem c1_perspective_shortcut_witness :
    matrixMapsTo ⟨160, 0, 0, 1000, 0, 0⟩ 4 3 640 3000 ∧
    ¬matrixMapsTo ⟨160, 0, 0, 1000, 0, 0⟩ 4 3 800 0 :=
  c1_perspective_shortcut.2 ⟨160, 0, 0, 1000, 0, 0⟩
    ⟨5, 1, 160, 1000, ⟨by norm_num, by norm_num [dist2]⟩, ⟨by norm_num, by norm_num [dist2]⟩,
      by norm_num, by norm_num, by simp only [Matrix2D.mk.injEq]; norm_num⟩

/-- C7.  Cropping with the quadrilateral equal to the image's own four
corners produces the requested output dimensions and a pure axis-aligned
scaling transform (scale factors outputWidth / width and
outputHeight / height, zero off-diagonal terms and zero translation): an
identity crop with scaling only. -/
theorem c7_identity_crop (width height outputWidth outputHeight : ℚ)
    (result : ℚ × ℚ × Matrix2D) (hw : 0 < width) (hh : 0 < height)
    (h : cropToRectangle ⟨⟨0, 0⟩, ⟨width, 0⟩, ⟨width, height⟩, ⟨0, height⟩⟩
      outputWidth outputHeight result) :
    result.1 = outputWidth ∧ result.2.1 = outputHeight ∧
    result.2.2 = ⟨(outputWidth : ℝ) / (width : ℝ), 0, 0,
      (outputHeight : ℝ) / (height : ℝ), 0, 0⟩ := by
  obtain ⟨h1, h2, srcW, srcH, sx, sy, hdw, hdh, hsx, hsy, hmeq⟩ := h
  refine ⟨h1, h2, ?_⟩
  have hdw2 : ((dist2 ⟨0, 0⟩ ⟨width, 0⟩ : ℚ) : ℝ) = ((width : ℝ)) ^ 2 := by
    simp only [dist2]
    push_cast
    ring
  have hdh2 : ((dist2 ⟨0, 0⟩ ⟨0, height⟩ : ℚ) : ℝ) = ((height : ℝ)) ^ 2 := by
    simp only [dist2]
    push_cast
    ring
  have hsw : srcW = (width : ℝ) :=
    nonneg_sq_inj _ _ hdw.1 (by positivity) (by rw [hdw.2, hdw2])
  have hsh : srcH = (height : ℝ) :=
    nonneg_sq_inj _ _ hdh.1 (by positivity) (by rw [hdh.2, hdh2])
  rw [hmeq, hsx, hsy, hsw, hsh]
  simp only [Matrix2D.mk.injEq]
  norm_num

/-- C7 (witness). -/
theorem c7_identity_crop_witness :
    ((800 : ℚ), (1000 : ℚ), (⟨400, 0, 0, 250, 0, 0⟩ : Matrix2D)).2.2 =
      ⟨((800 : ℚ) : ℝ) / ((2 : ℚ) : ℝ), 0, 0, ((1000 : ℚ) : ℝ) / ((4 : ℚ) : ℝ), 0, 0⟩ :=
  (c7_identity_crop 2 4 800 1000 (800, 1000, ⟨400, 0, 0, 250, 0, 0⟩)
    (by norm_num) (by norm_num)
    ⟨rfl, rfl, 2, 4, 400, 250, ⟨by norm_num, by norm_num [dist2]⟩,
      ⟨by norm_num, by norm_num [dist2]⟩, by norm_num, by norm_num,
      by simp only [Matrix2D.mk.injEq]; norm_num⟩).2.2

/-- C10.  Whenever the detection result carries no rectangle the confidence
is exactly 0, and whenever it carries a rectangle the confidence is the
scorer's value for that rectangle. -/
theorem c10_confidence_zero_invariant (edges : ImageData)
    (result : Option Rectangle × ℝ) (h : detectDocumentRectangle edges result) :
    (result.1 = none → result.2 = 0) ∧
    (∀ r : Rectangle, result.1 = some r →
      calculateConfidence r (edges.width : ℚ) (edges.height : ℚ) result.2) := by
  obtain ⟨-, hconf⟩ := h
  constructor
  · intro hnone
    rcases hconf with ⟨-, h0⟩ | ⟨r, hsome, -⟩
    · exact h0
    · rw [hnone] at hsome
      exact Option.noConfusion hsome
  · intro r hr
    rcases hconf with ⟨hnone, -⟩ | ⟨r2, hsome, hc⟩
    · rw [hr] at hnone
      exact Option.noConfusion hnone
    · rw [hr] at hsome
      rw [Option.some_inj] at hsome
      rw [hsome]
      exact hc

/-- C10 (witness). -/
theorem c10_confidence_zero_invariant_witness :
    ((none : Option Rectangle), (0 : ℝ)).2 = 0 :=
  (c10_confidence_zero_invariant ⟨1, 1, fun _ => 0⟩ (none, 0)
    ⟨by decide, Or.inl ⟨rfl, rfl⟩⟩).1 rfl

/-- C3.  The confidence score is (aspectScore * 0.6 + sizeScore * 0.4) * 100
with the aspect score clamped to 0 outside [0.5, 2]; consequently the score
always lies in [0, 100]; a perfectly square quadrilateral (all four edge
lengths equal) covering 80 percent of the image area scores exactly 100; and
an axis-aligned quadrilateral with aspect ratio 3:1 gets aspect-score
contribution 0 (its score is the size term alone). -/
theorem c3_confidence_score :
    (∀ (rect : Rectangle) (width height : ℚ) (score : ℝ),
        0 < width → 0 < height →
        calculateConfidence rect width height score →
        0 ≤ score ∧ score ≤ 100) ∧
    (∀ (rect : Rectangle) (width height : ℚ) (score d : ℝ),
        0 < width → 0 < height →
        IsDist rect.topLeft rect.topRight d →
        IsDist rect.bottomLeft rect.bottomRight d →
        IsDist rect.topLeft rect.bottomLeft d →
        IsDist rect.topRight rect.bottomRight d →
        d ^ 2 = 0.8 * ((width : ℝ) * (height : ℝ)) →
        calculateConfidence rect width height score →
        score = 100) ∧
    (∀ (t width height : ℚ) (score : ℝ),
        0 < t → 0 < width → 0 < height →
        calculateConfidence ⟨⟨0, 0⟩, ⟨3 * t, 0⟩, ⟨3 * t, t⟩, ⟨0, t⟩⟩ width height score →
        score = min (3 * (t : ℝ) ^ 2 / ((width : ℝ) * (height : ℝ)) / 0.8) 1 * 0.4 * 100) := by
  refine ⟨?_, ?_, ?_⟩
  · intro rect width height score hw hh hcc
    obtain ⟨dT, dB, dL, dR, rWidth, rHeight, asp, sf, aS, sS,
      hT, hB, hL, hR, hrw, hrh, hasp, hsf, haS1, haS2, hsS, hscore⟩ := hcc
    have hwh : (0 : ℝ) < (width : ℝ) * (height : ℝ) := by
      have hw' : (0 : ℝ) < (width : ℝ) := by exact_mod_cast hw
      have hh' : (0 : ℝ) < (height : ℝ) := by exact_mod_cast hh
      positivity
    have hrw0 : 0 ≤ rWidth := by rw [hrw]; exact le_max_of_le_left hT.1
    have hrh0 : 0 ≤ rHeight := by rw [hrh]; exact le_max_of_le_left hL.1
    have hsf0 : 0 ≤ sf := by
      rw [hsf]
      exact div_nonneg (mul_nonneg hrw0 hrh0) hwh.le
    have hsS01 : 0 ≤ sS ∧ sS ≤ 1 := by
      rw [hsS]
      constructor
      · rw [le_min_iff]
        exact ⟨div_nonneg hsf0 (by norm_num), by norm_num⟩
      · exact le_trans (min_le_right _ _) (by norm_num)
    have haS01 : 0 ≤ aS ∧ aS ≤ 1 := by
      by_cases hc : (0.5 : ℝ) ≤ asp ∧ asp ≤ 2.0
      · rw [haS1 hc]
        have habs : |asp - 1.0| ≤ 1 := by
          rw [abs_le]
          constructor <;> [linarith [hc.1]; linarith [hc.2]]
        have habs0 : 0 ≤ |asp - 1.0| := abs_nonneg _
        constructor <;> [linarith; linarith]
      · rw [haS2 hc]
        norm_num
    rw [hscore]
    constructor
    · nlinarith [haS01.1, hsS01.1]
    · nlinarith [haS01.2, hsS01.2]
  · intro rect width height score d hw hh hT' hB' hL' hR' harea hcc
    obtain ⟨dT, dB, dL, dR, rWidth, rHeight, asp, sf, aS, sS,
      hT, hB, hL, hR, hrw, hrh, hasp, hsf, haS1, haS2, hsS, hscore⟩ := hcc
    have hdT : dT = d := nonneg_sq_inj _ _ hT.1 hT'.1 (hT.2.trans hT'.2.symm)
    have hdB : dB = d := nonneg_sq_inj _ _ hB.1 hB'.1 (hB.2.trans hB'.2.symm)
    have hdL : dL = d := nonneg_sq_inj _ _ hL.1 hL'.1 (hL.2.trans hL'.2.symm)
    have hdR : dR = d := nonneg_sq_inj _ _ hR.1 hR'.1 (hR.2.trans hR'.2.symm)
    have hwh : (0 : ℝ) < (width : ℝ) * (height : ℝ) := by
      have hw' : (0 : ℝ) < (width : ℝ) := by exact_mod_cast hw
      have hh' : (0 : ℝ) < (height : ℝ) := by exact_mod_cast hh
      positivity
    have hd0 : 0 < d := by
      rcases lt_or_eq_of_le hT'.1 with h | h
      · exact h
      · exfalso
        rw [← h] at harea
        norm_num at harea
        rcases harea with h2 | h2
        · exact absurd h2 (ne_of_gt hw)
        · exact absurd h2 (ne_of_gt hh)
    have hrw' : rWidth = d := by rw [hrw, hdT, hdB, max_self]
    have hrh' : rHeight = d := by rw [hrh, hdL, hdR, max_self]
    have hasp' : asp = 1 := by rw [hasp, hrw', hrh', div_self (ne_of_gt hd0)]
    have haS' : aS = 1 := by
      rw [haS1 (by rw [hasp']; norm_num)]
      rw [hasp']
      norm_num
    have hsf' : sf = 0.8 := by
      rw [hsf, hrw', hrh']
      rw [show d * d = d ^ 2 by ring, harea]
      field_simp
    have hsS' : sS = 1 := by
      rw [hsS, hsf']
      norm_num
    rw [hscore, haS', hsS']
    norm_num
  · intro t width height score ht hw hh hcc
    obtain ⟨dT, dB, dL, dR, rWidth, rHeight, asp, sf, aS, sS,
      hT, hB, hL, hR, hrw, hrh, hasp, hsf, haS1, haS2, hsS, hscore⟩ := hcc
    have ht' : (0 : ℝ) < (t : ℝ) := by exact_mod_cast ht
    have hq1 : ((dist2 ⟨0, 0⟩ ⟨3 * t, 0⟩ : ℚ) : ℝ) = (3 * (t : ℝ)) ^ 2 := by
      simp only [dist2]
      push_cast
      ring
    have hq2 : ((dist2 ⟨0, t⟩ ⟨3 * t, t⟩ : ℚ) : ℝ) = (3 * (t : ℝ)) ^ 2 := by
      simp only [dist2]
      push_cast
      ring
    have hq3 : ((dist2 ⟨0, 0⟩ ⟨0, t⟩ : ℚ) : ℝ) = ((t : ℝ)) ^ 2 := by
      simp only [dist2]
      push_cast
      ring
    have hq4 : ((dist2 ⟨3 * t, 0⟩ ⟨3 * t, t⟩ : ℚ) : ℝ) = ((t : ℝ)) ^ 2 := by
      simp only [dist2]
      push_cast
      ring
    have hdT : dT = 3 * (t : ℝ) :=
      nonneg_sq_inj _ _ hT.1 (by positivity) (by rw [hT.2, hq1])
    have hdB : dB = 3 * (t : ℝ) :=
      nonneg_sq_inj _ _ hB.1 (by positivity) (by rw [hB.2, hq2])
    have hdL : dL = (t : ℝ) :=
      nonneg_sq_inj _ _ hL.1 ht'.le (by rw [hL.2, hq3])
    have hdR : dR = (t : ℝ) :=
      nonneg_sq_inj _ _ hR.1 ht'.le (by rw [hR.2, hq4])
    have hrw' : rWidth = 3 * (t : ℝ) := by rw [hrw, hdT, hdB, max_self]
    have hrh' : rHeight = (t : ℝ) := by rw [hrh, hdL, hdR, max_self]
    have hasp' : asp = 3 := by
      rw [hasp, hrw', hrh']
      field_simp
    have haS' : aS = 0 := by
      refine haS2 ?_
      rw [hasp']
      rintro ⟨-, habs⟩
      norm_num at habs
    have hsf' : sf = 3 * (t : ℝ) ^ 2 / ((width : ℝ) * (height : ℝ)) := by
      rw [hsf, hrw', hrh']
      ring_nf
    rw [hscore, haS', hsS, hsf']
    ring_nf

/-- C3 (witness): the 8-by-8 square on a 10-by-8 image covers exactly 80
percent of the area and scores 100, which lies within the proven bounds. -/
theorem c3_confidence_score_witness : (0 : ℝ) ≤ 100 ∧ (100 : ℝ) ≤ 100 := by
  have hinst : calculateConfidence ⟨⟨0, 0⟩, ⟨8, 0⟩, ⟨8, 8⟩, ⟨0, 8⟩⟩ 10 8 100 := by
    refine ⟨8, 8, 8, 8, 8, 8, 1, 0.8, 1, 1,
      ⟨by norm_num, by norm_num [dist2]⟩,
      ⟨by norm_num, by norm_num [dist2]⟩,
      ⟨by norm_num, by norm_num [dist2]⟩,
      ⟨by norm_num, by norm_num [dist2]⟩,
      by norm_num, by norm_num, by norm_num, by norm_num,
      ?_, ?_, by norm_num, by norm_num⟩
    · intro h
      norm_num
    · intro hcon
      exact absurd ⟨by norm_num, by norm_num⟩ hcon
  exact c3_confidence_score.1 ⟨⟨0, 0⟩, ⟨8, 0⟩, ⟨8, 8⟩, ⟨0, 8⟩⟩ 10 8 100
    (by norm_num) (by norm_num) hinst

/-- Clamped coordinates stay inside the image. -/
theorem clampIdx_lt (v : ℤ) (n : ℕ) (hn : 0 < n) : clampIdx v ((n : ℤ) - 1) < n := by
  simp only [clampIdx]
  omega

/-- Positivity of the (normalised) Gaussian kernel entries. -/
theorem generateGaussianKernel_pos (radius : ℕ) (kernel : ℕ → ℕ → ℝ)
    (hr : 1 ≤ radius) (hk : generateGaussianKernel radius kernel) :
    ∀ i j, 0 < kernel i j := by
  obtain ⟨sigma, norm, coeff, raw, hsig, hnorm, hcoeff, hraw, hker⟩ := hk
  have hrad : (0 : ℝ) < (radius : ℝ) := by exact_mod_cast hr
  have hsig0 : 0 < sigma := by rw [hsig]; positivity
  have hnorm0 : 0 < norm := by
    rw [hnorm]
    apply div_pos one_pos
    apply mul_pos _ hsig0
    apply Real.sqrt_pos.mpr
    positivity
  have hraw0 : ∀ i j, 0 < raw i j := by
    intro i j
    rw [hraw]
    exact mul_pos hnorm0 (Real.exp_pos _)
  intro i j
  rw [hker]
  apply div_pos (hraw0 i j)
  apply Finset.sum_pos _ (Finset.nonempty_range_iff.mpr (by omega))
  intro a _
  apply Finset.sum_pos _ (Finset.nonempty_range_iff.mpr (by omega))
  intro b _
  exact hraw0 a b

/-- Positivity of the summed kernel window. -/
theorem generateGaussianKernel_sum_pos (radius : ℕ) (kernel : ℕ → ℕ → ℝ)
    (hr : 1 ≤ radius) (hk : generateGaussianKernel radius kernel) :
    0 < ∑ i ∈ Finset.range (radius * 2 + 1), ∑ j ∈ Finset.range (radius * 2 + 1), kernel i j := by
  apply Finset.sum_pos _ (Finset.nonempty_range_iff.mpr (by omega))
  intro a _
  apply Finset.sum_pos _ (Finset.nonempty_range_iff.mpr (by omega))
  intro b _
  exact generateGaussianKernel_pos radius kernel hr hk a b

/-- A byte store within 1/2 of an integral value stores that value. -/
theorem roundsTo_nat (a b : ℕ) (h : RoundsTo (a : ℝ) b) : b = a := by
  by_contra hne
  have h1 : (1 : ℤ) ≤ |(a : ℤ) - (b : ℤ)| := by
    apply Int.one_le_abs
    intro heq
    apply hne
    omega
  have h2 : (1 : ℝ) ≤ |(a : ℝ) - (b : ℝ)| := by
    have h3 : ((1 : ℤ) : ℝ) ≤ ((|(a : ℤ) - (b : ℤ)| : ℤ) : ℝ) := by exact_mod_cast h1
    push_cast at h3
    exact h3
  unfold RoundsTo at h
  linarith

/-- Rounding a nonnegative real to the nearest integer (floor of r + 1/2)
satisfies the byte-store relation. -/
theorem roundsTo_floor (r : ℝ) (hr : 0 ≤ r) : RoundsTo r ⌊r + 1 / 2⌋₊ := by
  unfold RoundsTo
  have h1 : (⌊r + 1 / 2⌋₊ : ℝ) ≤ r + 1 / 2 := Nat.floor_le (by linarith)
  have h2 : r + 1 / 2 < ⌊r + 1 / 2⌋₊ + 1 := Nat.lt_floor_add_one _
  rw [abs_le]
  constructor <;> linarith

/-- Blur of a channel that is constant across the image leaves that channel
unchanged at every pixel. -/
theorem gaussianBlur_channel_const (img : ImageData) (radius : ℕ) (output : ImageData)
    (hr : 1 ≤ radius) (h : gaussianBlur img radius output)
    (c : ℕ) (hc : c < 4) (v : ℕ)
    (hv : ∀ p, p < img.width * img.height → img.data (p * 4 + c) = v) :
    ∀ x y, x < img.width → y < img.height →
      output.data ((y * img.width + x) * 4 + c) = v := by
  obtain ⟨hw, hh, kernel, hk, hpix⟩ := h
  intro x y hx hy
  have hwpos : 0 < img.width := by omega
  have hhpos : 0 < img.height := by omega
  have hsample : ∀ i j, blurSample img radius x y c i j = v := by
    intro i j
    unfold blurSample
    apply hv
    have hpx := clampIdx_lt ((x : ℤ) + ((j : ℤ) - (radius : ℤ))) img.width hwpos
    have hpy := clampIdx_lt ((y : ℤ) + ((i : ℤ) - (radius : ℤ))) img.height hhpos
    calc clampIdx ((y : ℤ) + ((i : ℤ) - (radius : ℤ))) ((img.height : ℤ) - 1) * img.width +
          clampIdx ((x : ℤ) + ((j : ℤ) - (radius : ℤ))) ((img.width : ℤ) - 1)
        < (clampIdx ((y : ℤ) + ((i : ℤ) - (radius : ℤ))) ((img.height : ℤ) - 1) + 1) * img.width := by
          rw [Nat.add_mul, Nat.one_mul]; omega
      _ ≤ img.height * img.width := Nat.mul_le_mul_right _ (by omega)
      _ = img.width * img.height := Nat.mul_comm _ _
  have hval := hpix x y c hx hy hc
  have hnum : (∑ i ∈ Finset.range (radius * 2 + 1), ∑ j ∈ Finset.range (radius * 2 + 1),
        kernel i j * (blurSample img radius x y c i j : ℝ))
      = (v : ℝ) * (∑ i ∈ Finset.range (radius * 2 + 1), ∑ j ∈ Finset.range (radius * 2 + 1),
        kernel i j) := by
    rw [Finset.mul_sum]
    apply Finset.sum_congr rfl
    intro i _
    rw [Finset.mul_sum]
    apply Finset.sum_congr rfl
    intro j _
    rw [hsample i j]
    ring
  rw [hnum] at hval
  have hS := generateGaussianKernel_sum_pos radius kernel hr hk
  rw [mul_div_assoc, div_self (ne_of_gt hS), mul_one] at hval
  exact roundsTo_nat v _ hval

/-- Existence of a kernel satisfying the construction relation. -/
theorem generateGaussianKernel_exists (radius : ℕ) :
    ∃ kernel : ℕ → ℕ → ℝ, generateGaussianKernel radius kernel := by
  refine ⟨fun i j =>
      ((1 / (Real.sqrt (2 * Real.pi) * ((radius : ℝ) / 3))) *
        Real.exp (-((((i : ℝ) - (radius : ℝ)) ^ 2 + (((j : ℝ) - (radius : ℝ))) ^ 2) /
          (2 * ((radius : ℝ) / 3) * ((radius : ℝ) / 3))))) /
      (∑ a ∈ Finset.range (radius * 2 + 1), ∑ b ∈ Finset.range (radius * 2 + 1),
        (1 / (Real.sqrt (2 * Real.pi) * ((radius : ℝ) / 3))) *
          Real.exp (-((((a : ℝ) - (radius : ℝ)) ^ 2 + (((b : ℝ) - (radius : ℝ))) ^ 2) /
            (2 * ((radius : ℝ) / 3) * ((radius : ℝ) / 3))))),
    (radius : ℝ) / 3, 1 / (Real.sqrt (2 * Real.pi) * ((radius : ℝ) / 3)),
    2 * ((radius : ℝ) / 3) * ((radius : ℝ) / 3), ?_, rfl, rfl, rfl, ?_, ?_⟩
  · exact fun i j =>
      (1 / (Real.sqrt (2 * Real.pi) * ((radius : ℝ) / 3))) *
        Real.exp (-((((i : ℝ) - (radius : ℝ)) ^ 2 + (((j : ℝ) - (radius : ℝ))) ^ 2) /
          (2 * ((radius : ℝ) / 3) * ((radius : ℝ) / 3))))
  · intro i j
    rfl
  · intro i j
    rfl

/-- C8 (amended).  Gaussian blur preserves the image dimensions; a
constant-color image (every channel constant) is returned unchanged at every
pixel including edge pixels, since neighbour coordinates are clamped to the
image bounds; and the alpha channel is averaged exactly like the color
channels, so it is preserved whenever the input alpha channel is constant
(but not in general). -/
theorem c8_gaussian_blur_amended (img : ImageData) (radius : ℕ) (output : ImageData)
    (hr : 1 ≤ radius) (h : gaussianBlur img radius output) :
    (output.width = img.width ∧ output.height = img.height) ∧
    (∀ col : ℕ → ℕ,
      (∀ p, p < img.width * img.height → ∀ c, c < 4 → img.data (p * 4 + c) = col c) →
      ∀ x y c, x < img.width → y < img.height → c < 4 →
        output.data ((y * img.width + x) * 4 + c) = col c) ∧
    (∀ alphaVal : ℕ,
      (∀ p, p < img.width * img.height → img.data (p * 4 + 3) = alphaVal) →
      ∀ x y, x < img.width → y < img.height →
        output.data ((y * img.width + x) * 4 + 3) = alphaVal) := by
  refine ⟨⟨h.1, h.2.1⟩, ?_, ?_⟩
  · intro col hcol x y c hx hy hc
    exact gaussianBlur_channel_const img radius output hr h c hc (col c)
      (fun p hp => hcol p hp c hc) x y hx hy
  · intro alphaVal halpha x y hx hy
    exact gaussianBlur_channel_const img radius output hr h 3 (by norm_num) alphaVal
      halpha x y hx hy

/-- Blur instance for the witness: the 1-by-1 constant image maps to itself. -/
theorem gaussianBlur_const_unit :
    gaussianBlur ⟨1, 1, fun _ => 7⟩ 1 ⟨1, 1, fun _ => 7⟩ := by
  obtain ⟨kernel, hk⟩ := generateGaussianKernel_exists 1
  have hS := generateGaussianKernel_sum_pos 1 kernel le_rfl hk
  refine ⟨rfl, rfl, kernel, hk, ?_⟩
  intro x y c hx hy hc
  have hnum : (∑ i ∈ Finset.range (1 * 2 + 1), ∑ j ∈ Finset.range (1 * 2 + 1),
        kernel i j * ((blurSample ⟨1, 1, fun _ => 7⟩ 1 x y c i j : ℕ) : ℝ))
      = (7 : ℝ) * (∑ i ∈ Finset.range (1 * 2 + 1), ∑ j ∈ Finset.range (1 * 2 + 1),
        kernel i j) := by
    rw [Finset.mul_sum]
    apply Finset.sum_congr rfl
    intro i _
    rw [Finset.mul_sum]
    apply Finset.sum_congr rfl
    intro j _
    have hsv : blurSample ⟨1, 1, fun _ => 7⟩ 1 x y c i j = 7 := rfl
    rw [hsv]
    norm_num
    ring
  rw [hnum, mul_div_assoc, div_self (ne_of_gt hS), mul_one]
  show RoundsTo 7 7
  unfold RoundsTo
  norm_num

/-- C8 (witness). -/
theorem c8_gaussian_blur_amended_witness :
    (⟨1, 1, fun _ => 7⟩ : ImageData).data ((0 * 1 + 0) * 4 + 2) = 7 :=
  (c8_gaussian_blur_amended ⟨1, 1, fun _ => 7⟩ 1 ⟨1, 1, fun _ => 7⟩ le_rfl
    gaussianBlur_const_unit).2.1 (fun _ => 7) (fun p hp c hc => rfl) 0 0 2
    (by norm_num) (by norm_num) (by norm_num)
set_option maxHeartbeats 1600000 in
/-- C8 (counterexample).  On the 1-by-2 image whose first pixel has alpha 0
and second pixel alpha 255 (all color channels 0), a valid blur output at
radius 1 exists that stores a nonzero alpha for the first pixel: the alpha
channel is not preserved in general.  The exhibited output stores each
channel's rounded blur value, and the first pixel's blurred alpha is at
least 1/2, so every rounding stores at least 1. -/
theorem c8_alpha_counterexample :
    ∃ output : ImageData,
      gaussianBlur ⟨1, 2, fun i => if i = 7 then 255 else 0⟩ 1 output ∧
      output.data ((0 * 1 + 0) * 4 + 3) ≠
        (⟨1, 2, fun i => if i = 7 then 255 else 0⟩ : ImageData).data ((0 * 1 + 0) * 4 + 3) := by
  obtain ⟨kernel, hk⟩ := generateGaussianKernel_exists 1
  have hS := generateGaussianKernel_sum_pos 1 kernel le_rfl hk
  have hkpos := generateGaussianKernel_pos 1 kernel le_rfl hk
  set K : ℝ := ∑ i ∈ Finset.range (1 * 2 + 1), ∑ j ∈ Finset.range (1 * 2 + 1), kernel i j with hK
  set N0 : ℝ := ∑ i ∈ Finset.range (1 * 2 + 1), ∑ j ∈ Finset.range (1 * 2 + 1),
      kernel i j * ((blurSample ⟨1, 2, fun i => if i = 7 then 255 else 0⟩ 1 0 0 3 i j : ℕ) : ℝ) with hN0
  set N1 : ℝ := ∑ i ∈ Finset.range (1 * 2 + 1), ∑ j ∈ Finset.range (1 * 2 + 1),
      kernel i j * ((blurSample ⟨1, 2, fun i => if i = 7 then 255 else 0⟩ 1 0 1 3 i j : ℕ) : ℝ) with hN1
  have hN0nn : 0 ≤ N0 / K := by
    apply div_nonneg _ hS.le
    rw [hN0]
    apply Finset.sum_nonneg
    intro i _
    apply Finset.sum_nonneg
    intro j _
    exact mul_nonneg (hkpos i j).le (Nat.cast_nonneg _)
  have hN1nn : 0 ≤ N1 / K := by
    apply div_nonneg _ hS.le
    rw [hN1]
    apply Finset.sum_nonneg
    intro i _
    apply Finset.sum_nonneg
    intro j _
    exact mul_nonneg (hkpos i j).le (Nat.cast_nonneg _)
  refine ⟨⟨1, 2, fun idx => if idx = 3 then ⌊N0 / K + 1 / 2⌋₊
      else if idx = 7 then ⌊N1 / K + 1 / 2⌋₊ else 0⟩, ⟨rfl, rfl, kernel, hk, ?_⟩, ?_⟩
  · intro x y c hx hy hc
    have hx1 : x < 1 := hx
    have hy2 : y < 2 := hy
    have hc4 : c < 4 := hc
    have hx0 : x = 0 := by omega
    subst hx0
    interval_cases y <;> interval_cases c
    · have hz : (∑ i ∈ Finset.range (1 * 2 + 1), ∑ j ∈ Finset.range (1 * 2 + 1),
          kernel i j * ((blurSample ⟨1, 2, fun i => if i = 7 then 255 else 0⟩ 1 0 0 0 i j : ℕ) : ℝ)) = 0 := by
        norm_num [Finset.sum_range_succ, blurSample, clampIdx]
      rw [hz, zero_div]
      show RoundsTo 0 0
      unfold RoundsTo
      norm_num
    · have hz : (∑ i ∈ Finset.range (1 * 2 + 1), ∑ j ∈ Finset.range (1 * 2 + 1),
          kernel i j * ((blurSample ⟨1, 2, fun i => if i = 7 then 255 else 0⟩ 1 0 0 1 i j : ℕ) : ℝ)) = 0 := by
        norm_num [Finset.sum_range_succ, blurSample, clampIdx]
      rw [hz, zero_div]
      show RoundsTo 0 0
      unfold RoundsTo
      norm_num
    · have hz : (∑ i ∈ Finset.range (1 * 2 + 1), ∑ j ∈ Finset.range (1 * 2 + 1),
          kernel i j * ((blurSample ⟨1, 2, fun i => if i = 7 then 255 else 0⟩ 1 0 0 2 i j : ℕ) : ℝ)) = 0 := by
        norm_num [Finset.sum_range_succ, blurSample, clampIdx]
      rw [hz, zero_div]
      show RoundsTo 0 0
      unfold RoundsTo
      norm_num
    · rw [← hN0, ← hK]
      show RoundsTo (N0 / K) ⌊N0 / K + 1 / 2⌋₊
      exact roundsTo_floor _ hN0nn
    · have hz : (∑ i ∈ Finset.range (1 * 2 + 1), ∑ j ∈ Finset.range (1 * 2 + 1),
          kernel i j * ((blurSample ⟨1, 2, fun i => if i = 7 then 255 else 0⟩ 1 0 1 0 i j : ℕ) : ℝ)) = 0 := by
        norm_num [Finset.sum_range_succ, blurSample, clampIdx]
      rw [hz, zero_div]
      show RoundsTo 0 0
      unfold RoundsTo
      norm_num
    · have hz : (∑ i ∈ Finset.range (1 * 2 + 1), ∑ j ∈ Finset.range (1 * 2 + 1),
          kernel i j * ((blurSample ⟨1, 2, fun i => if i = 7 then 255 else 0⟩ 1 0 1 1 i j : ℕ) : ℝ)) = 0 := by
        norm_num [Finset.sum_range_succ, blurSample, clampIdx]
      rw [hz, zero_div]
      show RoundsTo 0 0
      unfold RoundsTo
      norm_num
    · have hz : (∑ i ∈ Finset.range (1 * 2 + 1), ∑ j ∈ Finset.range (1 * 2 + 1),
          kernel i j * ((blurSample ⟨1, 2, fun i => if i = 7 then 255 else 0⟩ 1 0 1 2 i j : ℕ) : ℝ)) = 0 := by
        norm_num [Finset.sum_range_succ, blurSample, clampIdx]
      rw [hz, zero_div]
      show RoundsTo 0 0
      unfold RoundsTo
      norm_num
    · rw [← hN1, ← hK]
      show RoundsTo (N1 / K) ⌊N1 / K + 1 / 2⌋₊
      exact roundsTo_floor _ hN1nn
  · obtain ⟨sigma, norm, coeff, raw, hsig, hnorm, hcoeff, hraw, hker⟩ := hk
    have hnorm0 : 0 < norm := by
      rw [hnorm, hsig]
      apply div_pos one_pos
      apply mul_pos _ (by norm_num : (0 : ℝ) < ((1 : ℕ) : ℝ) / 3)
      exact Real.sqrt_pos.mpr (by positivity)
    have hraw0 : ∀ i j, 0 < raw i j := by
      intro i j
      rw [hraw]
      exact mul_pos hnorm0 (Real.exp_pos _)
    set S0 : ℝ := ∑ a ∈ Finset.range (1 * 2 + 1), ∑ b ∈ Finset.range (1 * 2 + 1), raw a b with hS0d
    have hS0 : 0 < S0 := by
      rw [hS0d]
      apply Finset.sum_pos _ (Finset.nonempty_range_iff.mpr (by omega))
      intro a _
      apply Finset.sum_pos _ (Finset.nonempty_range_iff.mpr (by omega))
      intro b _
      exact hraw0 a b
    have hKval : K = 1 := by
      rw [hK]
      have hrows : ∀ i ∈ Finset.range (1 * 2 + 1),
          (∑ j ∈ Finset.range (1 * 2 + 1), kernel i j)
            = (∑ j ∈ Finset.range (1 * 2 + 1), raw i j) / S0 := by
        intro i _
        rw [Finset.sum_div]
        exact Finset.sum_congr rfl (fun j _ => hker i j)
      rw [Finset.sum_congr rfl hrows, ← Finset.sum_div, ← hS0d, div_self (ne_of_gt hS0)]
    have hN0val : N0 = (∑ i ∈ Finset.range (1 * 2 + 1), ∑ j ∈ Finset.range (1 * 2 + 1),
        raw i j * ((blurSample ⟨1, 2, fun i => if i = 7 then 255 else 0⟩ 1 0 0 3 i j : ℕ) : ℝ)) / S0 := by
      rw [hN0, Finset.sum_div]
      apply Finset.sum_congr rfl
      intro i _
      rw [Finset.sum_div]
      apply Finset.sum_congr rfl
      intro j _
      rw [hker i j, div_mul_eq_mul_div]
    have hA : (∑ i ∈ Finset.range (1 * 2 + 1), ∑ j ∈ Finset.range (1 * 2 + 1),
        raw i j * ((blurSample ⟨1, 2, fun i => if i = 7 then 255 else 0⟩ 1 0 0 3 i j : ℕ) : ℝ))
        = norm * (255 * Real.exp (-(9 / 2 : ℝ)) + 510 * Real.exp (-(9 : ℝ))) := by
      norm_num [Finset.sum_range_succ, blurSample, clampIdx, hraw, hcoeff, hsig]
      ring_nf
    have hB : S0 = norm * (1 + 4 * Real.exp (-(9 / 2 : ℝ)) + 4 * Real.exp (-(9 : ℝ))) := by
      rw [hS0d]
      norm_num [Finset.sum_range_succ, hraw, hcoeff, hsig]
      ring_nf
    have hexp : Real.exp ((9 : ℝ) / 2) ≤ 506 := by
      have h1 : Real.exp ((9 : ℝ) / 2) ≤ Real.exp 5 := Real.exp_le_exp.mpr (by norm_num)
      have h2 : Real.exp (5 : ℝ) = Real.exp 1 ^ (5 : ℕ) := by
        rw [← Real.exp_nat_mul]
        norm_num
      have h3 : Real.exp 1 ^ (5 : ℕ) ≤ (2.7182818286 : ℝ) ^ (5 : ℕ) :=
        pow_le_pow_left₀ (Real.exp_pos 1).le Real.exp_one_lt_d9.le 5
      have h4 : (2.7182818286 : ℝ) ^ (5 : ℕ) ≤ 506 := by norm_num
      rw [h2] at h1
      linarith
    have hu : (1 : ℝ) / 506 ≤ Real.exp (-(9 / 2 : ℝ)) := by
      have h5 : Real.exp (-(9 / 2 : ℝ)) = (Real.exp ((9 : ℝ) / 2))⁻¹ := by
        rw [← Real.exp_neg]
      rw [h5, one_div]
      exact inv_anti₀ (Real.exp_pos _) hexp
    have hu0 : (0 : ℝ) ≤ Real.exp (-(9 / 2 : ℝ)) := (Real.exp_pos _).le
    have hw0 : (0 : ℝ) ≤ Real.exp (-(9 : ℝ)) := (Real.exp_pos _).le
    have hhalf : (1 : ℝ) / 2 ≤ N0 / K := by
      rw [hKval, div_one, hN0val, hA, le_div_iff₀ hS0, hB]
      calc 1 / 2 * (norm * (1 + 4 * Real.exp (-(9 / 2 : ℝ)) + 4 * Real.exp (-(9 : ℝ))))
          = norm * ((1 + 4 * Real.exp (-(9 / 2 : ℝ)) + 4 * Real.exp (-(9 : ℝ))) / 2) := by
            ring
        _ ≤ norm * (255 * Real.exp (-(9 / 2 : ℝ)) + 510 * Real.exp (-(9 : ℝ))) := by
            apply mul_le_mul_of_nonneg_left _ hnorm0.le
            linarith
    have hfl : (1 : ℕ) ≤ ⌊N0 / K + 1 / 2⌋₊ := by
      apply Nat.le_floor
      push_cast
      linarith
    show ⌊N0 / K + 1 / 2⌋₊ ≠ 0
    omega
